import Mathlib

/-!
Verification of the cron scheduler (`cron.go` and its `mapToSlice` helper).

Time (`time.Time`) is modelled as a natural number of ticks, with `0` playing
the role of Go's zero time (`IsZero` is `= 0`, `Before` is `<`, `After` is `>`).
The entry registry (`map[string]*Entry`) is modelled as an association list
with unique keys; Go map deletion and assignment become `deleteEntry` and
`setEntry`.  Jobs are modelled by an identity together with the observable
outcome of their `Run` method (normal return or panic), and the external
`Schedule` capability is an arbitrary function from ticks to ticks.
-/

namespace Cron

/-- Observable outcome of invoking a job body (`Run()`): normal return, or a
runtime panic carrying the panic value rendered as a string. -/
inductive RunResult where
  | ok : RunResult
  | panicked : String → RunResult
deriving DecidableEq

/-- A submitted cron job (the `Job` interface).  `jid` identifies the job
value; `runs` is the observable outcome of calling its `Run` method. -/
structure Job where
  jid : Nat
  runs : RunResult
deriving DecidableEq

/-- The `Schedule` capability: `Next t` is the next activation time after `t`,
or the zero sentinel when the schedule is unsatisfiable. -/
structure Schedule where
  Next : Nat → Nat

/-- Go's `Entry` struct (cron.go lines 40–57): a schedule, the bookkeeping
times `Next`/`Prev`, the entry's name and its job. -/
structure Entry where
  schedule : Schedule
  next : Nat
  prev : Nat
  name : String
  job : Job

/-- The entry registry, Go's `map[string]*Entry`, as an association list. -/
abbrev Registry := List (String × Entry)

/-- Lookup in a string-keyed association list: the Go map read `m[k]`. -/
def lookupKey {α : Type} : List (String × α) → String → Option α
  | [], _ => none
  | p :: t, k => if p.1 = k then some p.2 else lookupKey t k

/-- Removal from a string-keyed association list: the Go map `delete(m, k)`. -/
def removeKey {α : Type} : List (String × α) → String → List (String × α)
  | [], _ => []
  | p :: t, k => if p.1 = k then removeKey t k else p :: removeKey t k

/-- Go map deletion `delete(c.entries, name)`: drop the binding for `name`. -/
def deleteEntry (reg : Registry) (name : String) : Registry :=
  removeKey reg name

/-- Go map assignment `c.entries[name] = e`: bind `name` to `e`, replacing any
previous binding. -/
def setEntry (reg : Registry) (name : String) (e : Entry) : Registry :=
  (name, e) :: deleteEntry reg name

/-- Go `Cron.RemoveJobOrFunc` (cron.go lines 133–140): unconditionally delete
the named entry from the registry; the running loop is not notified. -/
def RemoveJobOrFunc (reg : Registry) (name : String) : Registry :=
  deleteEntry reg name

/-- The entry built at the top of `Cron.Schedule` (cron.go lines 145–149):
schedule, job and name set, `Next`/`Prev` left at the zero time. -/
def freshEntry (schedule : Schedule) (name : String) (cmd : Job) : Entry :=
  { schedule := schedule, next := 0, prev := 0, name := name, job := cmd }

/-- Go `Cron.Schedule`, not-running branch (cron.go lines 150–158): insert the
fresh entry only if no entry with that name exists; otherwise do nothing.
Both `AddJob` and `UpdateJob` reach this branch before the scheduler starts. -/
def schedulePrestart (reg : Registry) (schedule : Schedule) (name : String)
    (cmd : Job) : Registry :=
  match lookupKey reg name with
  | some _ => reg
  | none => setEntry reg name (freshEntry schedule name cmd)

/-- The run loop's `add` channel case (cron.go lines 259–268): compute the
incoming entry's `Next` from the refreshed current time, then insert it only
if the name is absent. -/
def loopAdd (reg : Registry) (now : Nat) (newEntry : Entry) : Registry :=
  let e : Entry := { newEntry with next := newEntry.schedule.Next now }
  match lookupKey reg e.name with
  | some _ => reg
  | none => setEntry reg e.name e

/-- Go `Cron.Schedule`, running+update branch, caller side (cron.go lines
160–165): overwrite the registry binding with the fresh entry (whose
`Next`/`Prev` are still the zero time) before handing it to the loop. -/
def updateCallerWrite (reg : Registry) (schedule : Schedule) (name : String)
    (cmd : Job) : Registry :=
  setEntry reg name (freshEntry schedule name cmd)

/-- The run loop's `update` channel case (cron.go lines 270–276): recompute the
received entry's `Next` from the refreshed current time and store it. -/
def loopUpdate (reg : Registry) (now : Nat) (newEntry : Entry) : Registry :=
  setEntry reg newEntry.name { newEntry with next := newEntry.schedule.Next now }

/-- The complete running-path update: the caller's registry overwrite followed
by the loop consuming the update message for the same entry. -/
def updateRunning (reg : Registry) (schedule : Schedule) (name : String)
    (cmd : Job) (now : Nat) : Registry :=
  loopUpdate (updateCallerWrite reg schedule name cmd) now (freshEntry schedule name cmd)

/-- Go `byTime.Less` (cron.go lines 65–76): a zero `Next` is never less than
anything; a real `Next` is less than a zero one; otherwise compare by time. -/
def byTimeLess (a b : Entry) : Bool :=
  if a.next = 0 then false
  else if b.next = 0 then true
  else decide (a.next < b.next)

/-- The non-strict order `sort.Sort(byTime(...))` establishes between an
earlier and a later element of the sorted slice: the later one is not
`byTimeLess` than the earlier one. -/
def byTimeLe (a b : Entry) : Bool := ! byTimeLess b a

/-- Go `mapToSlice`: the registry's values, in iteration order. -/
def mapToSlice (reg : Registry) : List Entry :=
  reg.map Prod.snd

/-- Go `sort.Sort(byTime(entries))` (cron.go line 234). -/
def sortEntries (l : List Entry) : List Entry :=
  l.mergeSort byTimeLe

/-- The loop's per-cycle view of the registry (cron.go lines 230–234): the
registry's values, sorted by `byTime`. -/
def sortedView (reg : Registry) : List Entry :=
  sortEntries (mapToSlice reg)

/-- The break condition of the timer-fire scan (cron.go line 251):
`e.Next.After(now) || e.Next.IsZero()`. -/
def stopsScan (now : Nat) (e : Entry) : Bool :=
  decide (now < e.next) || decide (e.next = 0)

/-- The bookkeeping update applied to a dispatched entry (cron.go lines
255–256): `Prev = Next; Next = Schedule.Next(now)`. -/
def dispatchUpd (now : Nat) (e : Entry) : Entry :=
  { e with prev := e.next, next := e.schedule.Next now }

/-- The timer-fire scan (cron.go lines 250–257): walk the sorted slice in
order, breaking at the first entry whose `Next` is after `now` or zero; every
earlier entry is dispatched and gets its `Prev`/`Next` updated.  Returns the
slice after the scan together with the dispatched entries (in dispatch order,
each with its pre-dispatch state). -/
def fireScan (now : Nat) : List Entry → List Entry × List Entry
  | [] => ([], [])
  | e :: rest =>
    if stopsScan now e then (e :: rest, [])
    else
      let r := fireScan now rest
      (dispatchUpd now e :: r.1, e :: r.2)

/-- A structured report of a recovered job panic: the panic value together
with the stack captured by `runtime.Stack`. -/
structure PanicLog where
  value : String
  stack : String
deriving DecidableEq

/-- Go `runWithRecovery` (cron.go lines 204–214): invoke the job; a panic is
recovered rather than propagated, and converted into a report carrying the
panic value and the captured stack, destined for the error sink via `logf`.
The `stack` argument stands for the buffer filled by `runtime.Stack`.  The
function always returns; a successful run reports nothing. -/
def runWithRecovery (stack : String) (j : Job) : Option PanicLog :=
  match j.runs with
  | .ok => none
  | .panicked v => some { value := v, stack := stack }

/-- The message `logf` receives from the recovery handler (cron.go line 210):
`"cron: panic running job: %v\n%s"` applied to the panic value and stack. -/
def panicMessage (l : PanicLog) : String :=
  "cron: panic running job: " ++ l.value ++ "\n" ++ l.stack

/-- The type of the external schedule-expression parser `Parse`, which lives
outside this source file: any function from a spec string to either a
schedule or an error.  The theorems below quantify over every such parser. -/
abbrev ParseFun := String → Except String Schedule

/-- Go `Cron.AddJob` before the scheduler has started (cron.go lines 113–120):
on parse failure return the parser's error with the registry untouched;
otherwise register through `Cron.Schedule` with `update = false`.  `AddFunc`
is this same function after wrapping the callback as a `FuncJob`. -/
def AddJobPrestart (parse : ParseFun) (reg : Registry) (spec name : String)
    (cmd : Job) : Option String × Registry :=
  match parse spec with
  | .error e => (some e, reg)
  | .ok schedule => (none, schedulePrestart reg schedule name cmd)

/-- Go `Cron.UpdateJob` before the scheduler has started (cron.go lines
123–130): the same parse step; `Cron.Schedule` is called with `update = true`
but its not-running branch ignores that flag and takes the insert-only path.
`UpdateFunc` is this same function after wrapping the callback. -/
def UpdateJobPrestart (parse : ParseFun) (reg : Registry) (spec name : String)
    (cmd : Job) : Option String × Registry :=
  match parse spec with
  | .error e => (some e, reg)
  | .ok schedule => (none, schedulePrestart reg schedule name cmd)

/-- Go `Cron.AddJob` while the scheduler is running: on parse failure return
the parser's error with the registry untouched; otherwise the entry is sent
on the `add` channel and the loop performs the insert at consumption time
`now`. -/
def AddJobRunning (parse : ParseFun) (reg : Registry) (spec name : String)
    (cmd : Job) (now : Nat) : Option String × Registry :=
  match parse spec with
  | .error e => (some e, reg)
  | .ok schedule => (none, loopAdd reg now (freshEntry schedule name cmd))

/-- Go `Cron.UpdateJob` while the scheduler is running: on parse failure
return the parser's error with the registry untouched; otherwise the caller
overwrites the registry and the loop recomputes `Next` at consumption time
`now`. -/
def UpdateJobRunning (parse : ParseFun) (reg : Registry) (spec name : String)
    (cmd : Job) (now : Nat) : Option String × Registry :=
  match parse spec with
  | .error e => (some e, reg)
  | .ok schedule => (none, updateRunning reg schedule name cmd now)

/-- Lifecycle-relevant state of a `Cron` instance: the `running` flag together
with an instrumentation counter of how many times the `run` loop has been
launched (`go c.run()` in `Start`, `c.run()` in `Run`). -/
structure LoopState where
  running : Bool
  loopLaunches : Nat
deriving DecidableEq

/-- A fresh instance from `New`/`NewWithLocation` (cron.go lines 79–95):
not running, loop never launched. -/
def newLoopState : LoopState :=
  { running := false, loopLaunches := 0 }

/-- Go `Cron.Start` (cron.go lines 187–193): no-op when already running;
otherwise set `running` and launch the loop in its own goroutine. -/
def Start (s : LoopState) : LoopState :=
  if s.running then s
  else { running := true, loopLaunches := s.loopLaunches + 1 }

/-- Go `Cron.Run` (cron.go lines 196–202): no-op when already running;
otherwise set `running` and run the loop on the caller's thread. -/
def Run (s : LoopState) : LoopState :=
  if s.running then s
  else { running := true, loopLaunches := s.loopLaunches + 1 }

/-- Go `Cron.Stop` (cron.go lines 302–308): no-op when not running; otherwise
signal the loop (which then returns) and clear `running`. -/
def Stop (s : LoopState) : LoopState :=
  if s.running then { s with running := false } else s

/-!
Pointer-level model for the snapshot claim.  Go entries are heap-allocated
structs shared by pointer between the registry map, the loop's slice and the
caller; `entrySnapshot` is interesting precisely because it allocates fresh
copies instead of handing out those pointers.  A heap cell index stands for a
`*Entry`.
-/

/-- The heap of allocated `Entry` objects; an index is a `*Entry`. -/
abbrev Heap := List Entry

/-- Dereference a pointer. -/
def readCell (h : Heap) (i : Nat) : Option Entry :=
  h.get? i

/-- Assign through a pointer (`e.Prev = ...` etc.). -/
def writeCell (h : Heap) (i : Nat) (e : Entry) : Heap :=
  h.set i e

/-- Allocate a batch of new objects at the end of the heap, returning the new
heap and the pointers to the fresh objects in order. -/
def allocCells (h : Heap) (es : List Entry) : Heap × List Nat :=
  (h ++ es, List.range' h.length es.length)

/-- Pointer-level cron state: the heap plus the registry mapping names to the
cells of their entries. -/
structure CronHeap where
  heap : Heap
  reg : List (String × Nat)

/-- The pointers the registry currently holds. -/
def regIds (st : CronHeap) : List Nat :=
  st.reg.map Prod.snd

/-- The copy `entrySnapshot` makes of one entry (cron.go lines 316–321):
`Schedule`, `Next`, `Prev` and `Job` are copied, the `Name` field is omitted
and is therefore Go's zero string. -/
def snapshotCopy (e : Entry) : Entry :=
  { schedule := e.schedule, next := e.next, prev := e.prev, name := "", job := e.job }

/-- Go `entrySnapshot` (cron.go lines 311–324), which `Entries` returns on
both the running and the not-running path: allocate, for every registry
entry, a fresh `Entry` copying its fields (name omitted), and return the
pointers to those fresh objects. -/
def entrySnapshot (st : CronHeap) : CronHeap × List Nat :=
  let copies := (st.reg.filterMap (fun p => readCell st.heap p.2)).map snapshotCopy
  let r := allocCells st.heap copies
  ({ st with heap := r.1 }, r.2)

/-- The registry mutations that can follow a snapshot. -/
inductive Mutation where
  | fire : Nat → Mutation
  | add : Nat → Schedule → String → Job → Mutation
  | update : Nat → Schedule → String → Job → Mutation
  | remove : String → Mutation

/-- The dispatch bookkeeping writes of one timer fire (cron.go lines 250–257):
every due registry cell is written with `Prev = Next; Next = Schedule.Next(now)`
through its pointer.  (On the loop's sorted slice the scanned-and-dispatched
entries are exactly the due ones.) -/
def fireWrites (h : Heap) (reg : List (String × Nat)) (now : Nat) : Heap :=
  reg.foldl
    (fun acc p =>
      match readCell acc p.2 with
      | some e => if stopsScan now e then acc else writeCell acc p.2 (dispatchUpd now e)
      | none => acc)
    h

/-- Apply one post-snapshot mutation at the pointer level.  `add` allocates a
fresh object and inserts its pointer only if the name is absent; `update`
allocates the fresh object built by `Cron.Schedule` (whose `Next` the loop
then sets through the same pointer) and repoints the name at it; `remove`
deletes the binding and writes nothing. -/
def applyMutation (st : CronHeap) : Mutation → CronHeap
  | .fire now => { st with heap := fireWrites st.heap st.reg now }
  | .add now schedule name cmd =>
    if (lookupKey st.reg name).isSome then st
    else
      { heap := st.heap ++ [{ freshEntry schedule name cmd with next := schedule.Next now }],
        reg := st.reg ++ [(name, st.heap.length)] }
  | .update now schedule name cmd =>
    { heap := st.heap ++ [{ freshEntry schedule name cmd with next := schedule.Next now }],
      reg := (name, st.heap.length) :: removeKey st.reg name }
  | .remove name => { st with reg := removeKey st.reg name }

/-- Apply a sequence of post-snapshot mutations. -/
def applyMutations (ops : List Mutation) (st : CronHeap) : CronHeap :=
  ops.foldl applyMutation st

/-- A simple recurring schedule, used for concrete instances: next activation
is `k` ticks after now. -/
def schedEvery (k : Nat) : Schedule :=
  ⟨fun t => t + k⟩

/-- A concrete job with identity `i` that returns normally. -/
def demoJob (i : Nat) : Job :=
  ⟨i, .ok⟩

/-- A concrete entry with the given name, `next` time and job identity. -/
def demoEntry (n : String) (nx : Nat) (i : Nat) : Entry :=
  { schedule := schedEvery 5, next := nx, prev := 0, name := n, job := demoJob i }

/-- A sequence of pre-start `AddJob`/`AddFunc` registrations (schedule, name,
job), applied through `Cron.Schedule`'s not-running insert-only branch. -/
def applyAdds (reg : Registry) (adds : List (Schedule × String × Job)) : Registry :=
  adds.foldl (fun r a => schedulePrestart r a.1 a.2.1 a.2.2) reg

/-- A sequence of running-path adds as the loop consumes them: each element is
the loop's current time at consumption paired with the received entry. -/
def applyLoopAdds (reg : Registry) (adds : List (Nat × Entry)) : Registry :=
  adds.foldl (fun r a => loopAdd r a.1 a.2) reg

/-- The names currently bound in the registry. -/
def regKeys (reg : Registry) : List String :=
  reg.map Prod.fst

/-- A parser that accepts every spec string with the given schedule. -/
def parseTo (s : Schedule) : ParseFun :=
  fun _ => .ok s

/-- A parser that rejects the spec string "bad" and accepts everything else. -/
def parseDemo : ParseFun :=
  fun s => if s = "bad" then .error "boom" else .ok (schedEvery 1)

/-- Copy an entry replacing its job by one with the same identity that returns
normally: the shape of a dispatch in which the job would have succeeded. -/
def scrubJob (e : Entry) : Entry :=
  { e with job := { jid := e.job.jid, runs := .ok } }

/-- An entry whose job panics when run. -/
def panicEntry : Entry :=
  { schedule := schedEvery 5, next := 5, prev := 0, name := "p",
    job := { jid := 9, runs := .panicked "boom" } }

/-- A one-entry registry whose entry is due at tick 5. -/
def regC1 : Registry :=
  [("a", demoEntry "a" 5 1)]

/-- A one-entry registry for the pre-start update counterexample. -/
def regC5 : Registry :=
  [("a", demoEntry "a" 0 1)]

/-- A one-entry registry used as a running registry in witnesses. -/
def regRun : Registry :=
  [("a", demoEntry "a" 5 1)]

/-- A concrete pointer-level state: one entry named "a" at cell 0. -/
def heapDemo : CronHeap :=
  { heap := [demoEntry "a" 5 1], reg := [("a", 0)] }

/-- A concrete mutation sequence touching every kind of mutation. -/
def mutsDemo : List Mutation :=
  [.fire 5, .update 6 (schedEvery 2) "a" (demoJob 2), .add 6 (schedEvery 3) "b" (demoJob 3),
   .remove "a"]

/-! Basic facts about the `byTime` comparator. -/

theorem byTimeLe_iff (a b : Entry) :
    byTimeLe a b = true ↔ (b.next = 0 ∨ (a.next ≠ 0 ∧ a.next ≤ b.next)) := by
  unfold byTimeLe byTimeLess
  by_cases hb : b.next = 0 <;> by_cases ha : a.next = 0 <;> simp [ha, hb]

theorem byTimeLe_trans (a b c : Entry) (hab : byTimeLe a b = true)
    (hbc : byTimeLe b c = true) : byTimeLe a c = true := by
  rw [byTimeLe_iff] at *
  omega

theorem byTimeLe_total (a b : Entry) : (byTimeLe a b || byTimeLe b a) = true := by
  simp only [Bool.or_eq_true, byTimeLe_iff]
  omega

/-- The loop's sorted view is sorted for the nonstrict `byTime` order. -/
theorem sortedView_pairwise (reg : Registry) :
    List.Pairwise (fun x y => byTimeLe x y = true) (sortedView reg) :=
  List.sorted_mergeSort byTimeLe_trans byTimeLe_total (mapToSlice reg)

/-- An entry at which the scan breaks is followed, in `byTime` order, only by
entries at which it would also break. -/
theorem stopsScan_mono (now : Nat) (e f : Entry) (he : stopsScan now e = true)
    (hef : byTimeLe e f = true) : stopsScan now f = true := by
  rw [byTimeLe_iff] at hef
  simp only [stopsScan, Bool.or_eq_true, decide_eq_true_eq] at he ⊢
  omega

/-- C6: the comparator behind the loop's per-cycle sort orders entries by
`Next`, with a zero `Next` treated as never due and sorted after every real
`Next` (a zero `Next` is less than nothing, and any real `Next` is less than
a zero one); among real `Next` values an earlier one sorts first; equal
`Next` values compare less-than in neither direction, so their relative
order is not constrained.  Moreover the view the loop actually sorts each
cycle is pairwise ordered by the induced nonstrict order. -/
theorem byTime_sort_rule (a b : Entry) (reg : Registry) :
    (a.next = 0 → byTimeLess a b = false) ∧
    (a.next ≠ 0 → b.next = 0 → byTimeLess a b = true) ∧
    (a.next ≠ 0 → b.next ≠ 0 → byTimeLess a b = decide (a.next < b.next)) ∧
    (a.next = b.next → byTimeLess a b = false ∧ byTimeLess b a = false) ∧
    List.Pairwise (fun x y => byTimeLe x y = true) (sortedView reg) := by
  refine ⟨?_, ?_, ?_, ?_, sortedView_pairwise reg⟩
  · intro h
    simp [byTimeLess, h]
  · intro ha hb
    simp [byTimeLess, ha, hb]
  · intro ha hb
    simp [byTimeLess, ha, hb]
  · intro h
    constructor <;> simp [byTimeLess, h]

/-- Witness for C6: a real `Next` sorts strictly before a zero one. -/
theorem byTime_sort_rule_witness :
    byTimeLess (demoEntry "a" 5 1) (demoEntry "b" 0 2) = true :=
  (byTime_sort_rule (demoEntry "a" 5 1) (demoEntry "b" 0 2) []).2.1 (by decide) (by decide)

/-- C2: on a timer fire at time `now` (the fired time, which the loop records
as its new current time), scanning a list sorted by `byTime` dispatches, in
order and exactly once each, precisely the entries whose `Next` is nonzero
and at or before `now` (so two entries due at the same wake both fire in
that cycle); each dispatched entry has its `Prev` set to its old `Next` and
its `Next` recomputed as `Schedule.Next(now)`; the scan stops at the first
entry whose `Next` is after `now` or is the zero sentinel, leaving all later
entries untouched. -/
theorem fire_dispatches_all_due (now : Nat) (l : List Entry)
    (hs : List.Pairwise (fun x y => byTimeLe x y = true) l) :
    fireScan now l =
      (l.map (fun e => if stopsScan now e then e else dispatchUpd now e),
       l.filter (fun e => ! stopsScan now e)) ∧
    (∀ e : Entry, stopsScan now e = false ↔ (e.next ≠ 0 ∧ e.next ≤ now)) := by
  constructor
  · induction l with
    | nil => rfl
    | cons e rest ih =>
      rcases List.pairwise_cons.1 hs with ⟨hhead, htail⟩
      by_cases h : stopsScan now e = true
      · have hall : ∀ f ∈ rest, stopsScan now f = true :=
          fun f hf => stopsScan_mono now e f h (hhead f hf)
        have hmap :
            rest.map (fun x => if stopsScan now x then x else dispatchUpd now x) = rest := by
          conv_rhs => rw [← List.map_id rest]
          exact List.map_congr_left (fun x hx => by simp [hall x hx])
        have hfilter : rest.filter (fun x => ! stopsScan now x) = [] := by
          rw [List.filter_eq_nil_iff]
          intro x hx
          simp [hall x hx]
        simp [fireScan, h, hmap, hfilter]
      · simp [fireScan, h, ih htail]
  · intro e
    simp only [stopsScan, Bool.or_eq_false_iff, decide_eq_false_iff_not]
    omega

/-- Witness for C2: two entries both due at the wake time 5 are both
dispatched in that single cycle. -/
theorem fire_dispatches_all_due_witness :
    List.Pairwise (fun x y => byTimeLe x y = true)
      [demoEntry "a" 5 1, demoEntry "b" 5 2, demoEntry "c" 0 3] ∧
    (fireScan 5 [demoEntry "a" 5 1, demoEntry "b" 5 2, demoEntry "c" 0 3] =
      ([demoEntry "a" 5 1, demoEntry "b" 5 2, demoEntry "c" 0 3].map
         (fun e => if stopsScan 5 e then e else dispatchUpd 5 e),
       [demoEntry "a" 5 1, demoEntry "b" 5 2, demoEntry "c" 0 3].filter
         (fun e => ! stopsScan 5 e)) ∧
     (∀ e : Entry, stopsScan 5 e = false ↔ (e.next ≠ 0 ∧ e.next ≤ 5))) :=
  ⟨by decide,
   fire_dispatches_all_due 5
     [demoEntry "a" 5 1, demoEntry "b" 5 2, demoEntry "c" 0 3] (by decide)⟩

/-! Registry lookup lemmas. -/

theorem lookupKey_removeKey_self {A : Type} (l : List (String × A)) (n : String) :
    lookupKey (removeKey l n) n = none := by
  induction l with
  | nil => rfl
  | cons p t ih =>
    by_cases h : p.1 = n
    · simpa [removeKey, h] using ih
    · simpa [removeKey, lookupKey, h] using ih

theorem lookupKey_removeKey_ne {A : Type} (l : List (String × A)) (n m : String)
    (h : m ≠ n) : lookupKey (removeKey l n) m = lookupKey l m := by
  induction l with
  | nil => rfl
  | cons p t ih =>
    by_cases hp : p.1 = n
    · subst hp
      have hm : ¬ p.1 = m := fun q => h q.symm
      simpa [removeKey, lookupKey, hm] using ih
    · by_cases hm : p.1 = m
      · simp [removeKey, lookupKey, hp, hm, h]
      · simpa [removeKey, lookupKey, hp, hm] using ih

theorem lookup_setEntry_self (reg : Registry) (n : String) (e : Entry) :
    lookupKey (setEntry reg n e) n = some e := by
  simp [setEntry, lookupKey]

theorem lookup_setEntry_ne (reg : Registry) (n m : String) (e : Entry) (h : m ≠ n) :
    lookupKey (setEntry reg n e) m = lookupKey reg m := by
  have hnm : ¬ n = m := fun q => h q.symm
  simp only [setEntry, deleteEntry, lookupKey, hnm, if_false]
  exact lookupKey_removeKey_ne reg n m h

/-- Unfolding of `loopAdd` with the received entry's updated form spelled
out. -/
theorem loopAdd_eq (reg : Registry) (now : Nat) (ne : Entry) :
    loopAdd reg now ne =
      match lookupKey reg ne.name with
      | some _ => reg
      | none => setEntry reg ne.name { ne with next := ne.schedule.Next now } := rfl

/-! Insert-only behaviour of the two add paths. -/

theorem applyAdds_lookup_of_some (adds : List (Schedule × String × Job))
    (reg : Registry) (n : String) (e : Entry) (h : lookupKey reg n = some e) :
    lookupKey (applyAdds reg adds) n = some e := by
  induction adds generalizing reg with
  | nil => exact h
  | cons a t ih =>
    show lookupKey (applyAdds (schedulePrestart reg a.1 a.2.1 a.2.2) t) n = some e
    apply ih
    unfold schedulePrestart
    cases hl : lookupKey reg a.2.1 with
    | some x => exact h
    | none =>
      have hne : n ≠ a.2.1 := by
        intro heq
        rw [heq, hl] at h
        cases h
      rw [lookup_setEntry_ne _ _ _ _ hne]
      exact h

theorem applyAdds_lookup_of_none (adds : List (Schedule × String × Job))
    (reg : Registry) (n : String) (h : lookupKey reg n = none) :
    lookupKey (applyAdds reg adds) n =
      (adds.find? (fun a => a.2.1 == n)).map (fun a => freshEntry a.1 a.2.1 a.2.2) := by
  induction adds generalizing reg with
  | nil => simpa using h
  | cons a t ih =>
    show lookupKey (applyAdds (schedulePrestart reg a.1 a.2.1 a.2.2) t) n = _
    by_cases he : a.2.1 = n
    · subst he
      have hins : schedulePrestart reg a.1 a.2.1 a.2.2 =
          setEntry reg a.2.1 (freshEntry a.1 a.2.1 a.2.2) := by
        unfold schedulePrestart
        rw [h]
      rw [hins, List.find?_cons_of_pos _ (by simp)]
      exact applyAdds_lookup_of_some t _ _ _ (lookup_setEntry_self _ _ _)
    · have hnone : lookupKey (schedulePrestart reg a.1 a.2.1 a.2.2) n = none := by
        unfold schedulePrestart
        cases hl : lookupKey reg a.2.1 with
        | some x => exact h
        | none =>
          rw [lookup_setEntry_ne _ _ _ _ (fun heq => he heq.symm)]
          exact h
      rw [ih _ hnone, List.find?_cons_of_neg _ (by simp [he])]

theorem applyLoopAdds_lookup_of_some (adds : List (Nat × Entry))
    (reg : Registry) (n : String) (e : Entry) (h : lookupKey reg n = some e) :
    lookupKey (applyLoopAdds reg adds) n = some e := by
  induction adds generalizing reg with
  | nil => exact h
  | cons a t ih =>
    show lookupKey (applyLoopAdds (loopAdd reg a.1 a.2) t) n = some e
    apply ih
    rw [loopAdd_eq]
    cases hl : lookupKey reg a.2.name with
    | some x => exact h
    | none =>
      have hne : n ≠ a.2.name := by
        intro heq
        rw [heq, hl] at h
        cases h
      exact (lookup_setEntry_ne _ _ _ _ hne).trans h

theorem applyLoopAdds_lookup_of_none (adds : List (Nat × Entry))
    (reg : Registry) (n : String) (h : lookupKey reg n = none) :
    lookupKey (applyLoopAdds reg adds) n =
      (adds.find? (fun a => a.2.name == n)).map
        (fun a => { a.2 with next := a.2.schedule.Next a.1 }) := by
  induction adds generalizing reg with
  | nil => simpa using h
  | cons a t ih =>
    show lookupKey (applyLoopAdds (loopAdd reg a.1 a.2) t) n = _
    by_cases he : a.2.name = n
    · subst he
      have hins : loopAdd reg a.1 a.2 =
          setEntry reg a.2.name { a.2 with next := a.2.schedule.Next a.1 } := by
        rw [loopAdd_eq, h]
      rw [hins, List.find?_cons_of_pos _ (by simp)]
      exact applyLoopAdds_lookup_of_some t _ _ _ (lookup_setEntry_self _ _ _)
    · have hnone : lookupKey (loopAdd reg a.1 a.2) n = none := by
        rw [loopAdd_eq]
        cases hl : lookupKey reg a.2.name with
        | some x => exact h
        | none => exact (lookup_setEntry_ne _ _ _ _ (fun heq => he heq.symm)).trans h
      rw [ih _ hnone, List.find?_cons_of_neg _ (by simp [he])]

/-! Uniqueness of registry keys. -/

theorem removeKey_sublist {A : Type} (l : List (String × A)) (k : String) :
    List.Sublist (removeKey l k) l := by
  induction l with
  | nil => exact List.Sublist.refl _
  | cons p t ih =>
    by_cases h : p.1 = k
    · simpa [removeKey, h] using List.Sublist.cons p ih
    · simpa [removeKey, h] using List.Sublist.cons₂ p ih

theorem mem_removeKey_ne {A : Type} (l : List (String × A)) (k : String)
    (q : String × A) (h : q ∈ removeKey l k) : q.1 ≠ k := by
  induction l with
  | nil => cases h
  | cons p t ih =>
    by_cases hp : p.1 = k
    · rw [show removeKey (p :: t) k = removeKey t k from by simp [removeKey, hp]] at h
      exact ih h
    · rw [show removeKey (p :: t) k = p :: removeKey t k from by simp [removeKey, hp]] at h
      rcases List.mem_cons.1 h with rfl | h2
      · exact hp
      · exact ih h2

theorem regKeys_setEntry_nodup (reg : Registry) (n : String) (e : Entry)
    (h : (regKeys reg).Nodup) : (regKeys (setEntry reg n e)).Nodup := by
  unfold regKeys setEntry deleteEntry
  simp only [List.map_cons, List.nodup_cons]
  constructor
  · intro hmem
    rcases List.mem_map.1 hmem with ⟨p, hp, hq⟩
    exact mem_removeKey_ne reg n p hp hq
  · exact h.sublist ((removeKey_sublist reg n).map Prod.fst)

theorem regKeys_schedulePrestart_nodup (reg : Registry) (s : Schedule) (n : String)
    (c : Job) (h : (regKeys reg).Nodup) :
    (regKeys (schedulePrestart reg s n c)).Nodup := by
  unfold schedulePrestart
  cases lookupKey reg n with
  | some x => exact h
  | none => exact regKeys_setEntry_nodup reg n _ h

theorem regKeys_loopAdd_nodup (reg : Registry) (now : Nat) (e : Entry)
    (h : (regKeys reg).Nodup) : (regKeys (loopAdd reg now e)).Nodup := by
  rw [loopAdd_eq]
  cases lookupKey reg e.name with
  | some x => exact h
  | none => exact regKeys_setEntry_nodup reg _ _ h

theorem applyAdds_keys_nodup (adds : List (Schedule × String × Job))
    (reg : Registry) (h : (regKeys reg).Nodup) :
    (regKeys (applyAdds reg adds)).Nodup := by
  induction adds generalizing reg with
  | nil => exact h
  | cons a t ih => exact ih _ (regKeys_schedulePrestart_nodup reg a.1 a.2.1 a.2.2 h)

theorem applyLoopAdds_keys_nodup (adds : List (Nat × Entry))
    (reg : Registry) (h : (regKeys reg).Nodup) :
    (regKeys (applyLoopAdds reg adds)).Nodup := by
  induction adds generalizing reg with
  | nil => exact h
  | cons a t ih => exact ih _ (regKeys_loopAdd_nodup reg a.1 a.2 h)

/-- C4: both add paths are insert-only (first registration wins).  Starting
from the empty registry, after any sequence of pre-start `Add` calls the
binding for a name is exactly the fresh entry of the first call registering
that name (or absent when no call used that name); likewise, after the loop
consumes any sequence of add messages, the binding is the first received
entry for that name with its `Next` computed at its consumption time.  In
both cases the registry holds at most one entry per name. -/
theorem add_first_registration_wins (adds : List (Schedule × String × Job))
    (loopAdds : List (Nat × Entry)) (n : String) :
    lookupKey (applyAdds [] adds) n =
      (adds.find? (fun a => a.2.1 == n)).map (fun a => freshEntry a.1 a.2.1 a.2.2) ∧
    lookupKey (applyLoopAdds [] loopAdds) n =
      (loopAdds.find? (fun a => a.2.name == n)).map
        (fun a => { a.2 with next := a.2.schedule.Next a.1 }) ∧
    (regKeys (applyAdds [] adds)).Nodup ∧
    (regKeys (applyLoopAdds [] loopAdds)).Nodup :=
  ⟨applyAdds_lookup_of_none adds [] n rfl,
   applyLoopAdds_lookup_of_none loopAdds [] n rfl,
   applyAdds_keys_nodup adds [] List.nodup_nil,
   applyLoopAdds_keys_nodup loopAdds [] List.nodup_nil⟩

/-- C3 counterexample: `Stop` is not terminal in the code.  Starting a fresh
instance, stopping it, and calling `Start` again leaves the instance running
and launches the `run` loop a second time, contradicting the claim that a
`Start` after `Stop` does not restart the loop. -/
theorem stop_terminal_counterexample :
    (Start (Stop (Start newLoopState))).running = true ∧
    (Start (Stop (Start newLoopState))).loopLaunches =
      (Stop (Start newLoopState)).loopLaunches + 1 := by
  constructor <;> rfl

/-- C3 amended: `Stopped` is not a terminal state.  `Stop` merely clears the
`running` flag (after signalling the loop, which exits), so a subsequent
`Start` or `Run` on the same instance finds `running = false` and launches
the `run` loop again; no fresh instance is required. -/
theorem stop_then_start_relaunches (s : LoopState) (h : s.running = true) :
    (Stop s).running = false ∧
    Start (Stop s) = { running := true, loopLaunches := s.loopLaunches + 1 } ∧
    Run (Stop s) = { running := true, loopLaunches := s.loopLaunches + 1 } := by
  simp [Stop, Start, Run, h]

/-- Witness for the amended C3 at a concrete running instance. -/
theorem stop_then_start_relaunches_witness :
    (Stop ⟨true, 1⟩).running = false ∧
    Start (Stop ⟨true, 1⟩) = ⟨true, 2⟩ ∧
    Run (Stop ⟨true, 1⟩) = ⟨true, 2⟩ :=
  stop_then_start_relaunches ⟨true, 1⟩ rfl

/-- C5 counterexample: before the scheduler starts, an `Update` call on an
existing name is silently ignored rather than replacing the entry.  The
registry `regC5` binds "a" to an entry whose job has identity 1; updating
"a" with a job of identity 2 succeeds (no error) yet leaves the registry
unchanged, old job still in place. -/
theorem update_prestart_ignored_counterexample :
    UpdateJobPrestart (parseTo (schedEvery 2)) regC5 "sp" "a" (demoJob 2) = (none, regC5) ∧
    (lookupKey regC5 "a").map (fun e => e.job.jid) = some 1 ∧
    (demoJob 2).jid = 2 := by
  refine ⟨rfl, rfl, rfl⟩

/-- C5 amended: while the scheduler is running, an `Update` on an existing
name fully replaces the stored entry's schedule and job and recomputes its
`Next` from the time at which the loop consumes the update; before the
scheduler starts, the update takes the insert-only path and leaves an
existing entry untouched. -/
theorem update_replaces_while_running (reg : Registry) (schedule : Schedule)
    (name : String) (cmd : Job) (now : Nat)
    (h : (lookupKey reg name).isSome = true) :
    lookupKey (updateRunning reg schedule name cmd now) name =
      some { schedule := schedule, next := schedule.Next now, prev := 0,
             name := name, job := cmd } ∧
    schedulePrestart reg schedule name cmd = reg := by
  constructor
  · simp [updateRunning, loopUpdate, updateCallerWrite, freshEntry, lookup_setEntry_self]
  · cases hl : lookupKey reg name with
    | some x => simp [schedulePrestart, hl]
    | none => simp [hl] at h

/-- Witness for the amended C5 at a concrete registry and update. -/
theorem update_replaces_while_running_witness :
    lookupKey (updateRunning regRun (schedEvery 2) "a" (demoJob 2) 7) "a" =
      some { schedule := schedEvery 2, next := 9, prev := 0,
             name := "a", job := demoJob 2 } ∧
    schedulePrestart regRun (schedEvery 2) "a" (demoJob 2) = regRun :=
  update_replaces_while_running regRun (schedEvery 2) "a" (demoJob 2) 7 rfl

/-- C10: a running-path update on an existing name discards the entry's
last-run timestamp and exposes a transient zero `Next`: the caller's
overwrite stores a fresh entry whose `Next` and `Prev` are both the zero
time, and that entry is what the registry shows until the loop consumes the
update message, at which point `Next` is recomputed from the loop's current
time while `Prev` remains zero. -/
theorem update_overwrite_window (reg : Registry) (schedule : Schedule)
    (name : String) (cmd : Job) (now : Nat)
    (h : (lookupKey reg name).isSome = true) :
    lookupKey (updateCallerWrite reg schedule name cmd) name =
      some (freshEntry schedule name cmd) ∧
    (freshEntry schedule name cmd).next = 0 ∧
    (freshEntry schedule name cmd).prev = 0 ∧
    lookupKey
        (loopUpdate (updateCallerWrite reg schedule name cmd) now
          (freshEntry schedule name cmd)) name =
      some { schedule := schedule, next := schedule.Next now, prev := 0,
             name := name, job := cmd } := by
  refine ⟨?_, rfl, rfl, ?_⟩ <;>
    simp [updateCallerWrite, loopUpdate, freshEntry, lookup_setEntry_self]

/-- Witness for C10 at a concrete registry and update. -/
theorem update_overwrite_window_witness :
    lookupKey (updateCallerWrite regRun (schedEvery 2) "a" (demoJob 2)) "a" =
      some (freshEntry (schedEvery 2) "a" (demoJob 2)) ∧
    (freshEntry (schedEvery 2) "a" (demoJob 2)).next = 0 ∧
    (freshEntry (schedEvery 2) "a" (demoJob 2)).prev = 0 ∧
    lookupKey
        (loopUpdate (updateCallerWrite regRun (schedEvery 2) "a" (demoJob 2)) 7
          (freshEntry (schedEvery 2) "a" (demoJob 2))) "a" =
      some { schedule := schedEvery 2, next := 9, prev := 0,
             name := "a", job := demoJob 2 } :=
  update_overwrite_window regRun (schedEvery 2) "a" (demoJob 2) 7 rfl

/-- C7: for every parser outcome, `AddFunc`/`AddJob`/`UpdateFunc`/`UpdateJob`
(on both the pre-start and the running path) return the parser's error
unmodified and leave the registry unchanged when parsing fails, and return
no error and proceed to the corresponding registration when parsing
succeeds. -/
theorem parse_error_unmodified (parse : ParseFun) (reg : Registry)
    (spec name : String) (cmd : Job) (now : Nat) :
    (∀ err, parse spec = .error err →
      AddJobPrestart parse reg spec name cmd = (some err, reg) ∧
      UpdateJobPrestart parse reg spec name cmd = (some err, reg) ∧
      AddJobRunning parse reg spec name cmd now = (some err, reg) ∧
      UpdateJobRunning parse reg spec name cmd now = (some err, reg)) ∧
    (∀ schedule, parse spec = .ok schedule →
      AddJobPrestart parse reg spec name cmd =
        (none, schedulePrestart reg schedule name cmd) ∧
      UpdateJobPrestart parse reg spec name cmd =
        (none, schedulePrestart reg schedule name cmd) ∧
      AddJobRunning parse reg spec name cmd now =
        (none, loopAdd reg now (freshEntry schedule name cmd)) ∧
      UpdateJobRunning parse reg spec name cmd now =
        (none, updateRunning reg schedule name cmd now)) := by
  constructor <;> intro x hx <;>
    simp [AddJobPrestart, UpdateJobPrestart, AddJobRunning, UpdateJobRunning, hx]

/-- Witness for C7: a failing parse returns the parser's error with the
registry untouched; a succeeding parse registers. -/
theorem parse_error_unmodified_witness :
    AddJobPrestart parseDemo [] "bad" "a" (demoJob 1) = (some "boom", []) ∧
    UpdateJobRunning parseDemo [] "ok" "a" (demoJob 1) 3 =
      (none, updateRunning [] (schedEvery 1) "a" (demoJob 1) 3) :=
  ⟨((parse_error_unmodified parseDemo [] "bad" "a" (demoJob 1) 0).1 "boom" rfl).1,
   ((parse_error_unmodified parseDemo [] "ok" "a" (demoJob 1) 3).2
      (schedEvery 1) rfl).2.2.2⟩

/-! Dispatched entries come from the scanned slice. -/

theorem fireScan_mem (now : Nat) (l : List Entry) (e : Entry)
    (h : e ∈ (fireScan now l).2) : e ∈ l := by
  induction l with
  | nil => simp [fireScan] at h
  | cons f t ih =>
    by_cases hs : stopsScan now f = true
    · rw [show fireScan now (f :: t) = (f :: t, []) from by simp [fireScan, hs]] at h
      cases h
    · rw [show fireScan now (f :: t) =
          (dispatchUpd now f :: (fireScan now t).1, f :: (fireScan now t).2) from by
            simp [fireScan, hs]] at h
      rcases List.mem_cons.1 h with rfl | h2
      · exact List.mem_cons_self _ _
      · exact List.mem_cons_of_mem _ (ih h2)

/-- C1 counterexample: the claim that a stale wake never dispatches a removed
entry is false.  With registry `regC1` holding the single entry "a" due at
tick 5, removing "a" while the loop is blocked on its timer leaves the
registry empty, yet when the timer fires at tick 5 the loop scans the slice
it captured before the wait and still dispatches the removed entry's job. -/
theorem remove_stale_wake_counterexample :
    lookupKey (RemoveJobOrFunc regC1 "a") "a" = none ∧
    (fireScan 5 (sortedView regC1)).2.map (fun e => (e.name, e.job.jid)) = [("a", 1)] := by
  constructor
  · rfl
  · have hview : sortedView regC1 = [demoEntry "a" 5 1] := by
      simp [sortedView, sortEntries, mapToSlice, regC1]
    rw [hview]
    rfl

/-- C1 amended: removing an entry does not notify the loop, and the wake
already pending when the removal happens scans the slice captured before the
wait, so the removed entry's job may be dispatched one final time at that
stale wake.  From the next cycle on, however, the loop rebuilds its view
from the registry, the removed name is gone, and no entry bearing it is ever
dispatched again — the lasting cost is only the extra wake-and-rescan. -/
theorem removed_entry_absent_after_stale_wake (reg : Registry) (name : String)
    (now : Nat) (hwf : ∀ p ∈ reg, (p.2 : Entry).name = p.1) :
    lookupKey (RemoveJobOrFunc reg name) name = none ∧
    ∀ e ∈ (fireScan now (sortedView (RemoveJobOrFunc reg name))).2, e.name ≠ name := by
  constructor
  · exact lookupKey_removeKey_self reg name
  · intro e he hn
    have h1 : e ∈ sortedView (RemoveJobOrFunc reg name) := fireScan_mem _ _ _ he
    have h2 : e ∈ mapToSlice (RemoveJobOrFunc reg name) := by
      simpa [sortedView, sortEntries] using h1
    rcases List.mem_map.1 h2 with ⟨p, hp, hpe⟩
    have h3 : p ∈ reg := (removeKey_sublist reg name).subset hp
    have h4 := hwf p h3
    have h5 := mem_removeKey_ne reg name p hp
    apply h5
    rw [← h4, hpe, hn]

/-- Witness for the amended C1 at a concrete registry and wake time. -/
theorem removed_entry_absent_after_stale_wake_witness :
    lookupKey (RemoveJobOrFunc regC1 "a") "a" = none ∧
    ∀ e ∈ (fireScan 7 (sortedView (RemoveJobOrFunc regC1 "a"))).2, e.name ≠ "a" :=
  removed_entry_absent_after_stale_wake regC1 "a" 7 (by decide)

/-! The fire scan is insensitive to job outcomes. -/

theorem fireScan_scrub (now : Nat) (l : List Entry) :
    fireScan now (l.map scrubJob) =
      ((fireScan now l).1.map scrubJob, (fireScan now l).2.map scrubJob) := by
  induction l with
  | nil => rfl
  | cons e rest ih =>
    cases hs : stopsScan now e with
    | true =>
      simp [fireScan, hs, show stopsScan now (scrubJob e) = true from hs]
    | false =>
      simp [fireScan, hs, show stopsScan now (scrubJob e) = false from hs, ih,
        show dispatchUpd now (scrubJob e) = scrubJob (dispatchUpd now e) from rfl]

/-- C8: a panic raised by a job is contained at the dispatch boundary.
Replacing every job in a scanned slice by one that succeeds changes neither
the slice's post-scan bookkeeping nor which entries are dispatched (first
conjunct: the scan commutes with forgetting job outcomes, so `Prev`/`Next`
are updated exactly as if the job had succeeded and all other entries are
unaffected); a dispatched job that panics is converted by `runWithRecovery`
into a structured report carrying the panic value and the captured stack
trace for the error sink, rather than propagating (so the loop keeps running
and later cycles dispatch normally); a job that returns normally reports
nothing; and the sink message format carries both the value and the trace. -/
theorem panic_contained (now : Nat) (l : List Entry) (stack : String) :
    fireScan now (l.map scrubJob) =
      ((fireScan now l).1.map scrubJob, (fireScan now l).2.map scrubJob) ∧
    (∀ e ∈ (fireScan now l).2, ∀ v, e.job.runs = .panicked v →
      runWithRecovery stack e.job = some { value := v, stack := stack }) ∧
    (∀ j : Job, j.runs = .ok → runWithRecovery stack j = none) ∧
    (∀ lg : PanicLog,
      panicMessage lg = "cron: panic running job: " ++ lg.value ++ "\n" ++ lg.stack) := by
  refine ⟨fireScan_scrub now l, ?_, ?_, fun lg => rfl⟩
  · intro e he v hv
    simp [runWithRecovery, hv]
  · intro j hj
    simp [runWithRecovery, hj]

/-- Witness for C8: a concrete panicking entry is dispatched with its
bookkeeping as if it had succeeded, and its panic is reported with the
captured stack. -/
theorem panic_contained_witness :
    fireScan 5 ([panicEntry].map scrubJob) =
      ((fireScan 5 [panicEntry]).1.map scrubJob,
       (fireScan 5 [panicEntry]).2.map scrubJob) ∧
    runWithRecovery "trace" panicEntry.job =
      some { value := "boom", stack := "trace" } :=
  ⟨(panic_contained 5 [panicEntry] "trace").1,
   (panic_contained 5 [panicEntry] "trace").2.1 panicEntry
     (by simp [fireScan, panicEntry, stopsScan]) "boom" rfl⟩

/-! Frame lemmas for the pointer-level model. -/

theorem fireWrites_cons (h : Heap) (p : String × Nat) (t : List (String × Nat))
    (now : Nat) :
    fireWrites h (p :: t) now =
      fireWrites
        (match readCell h p.2 with
         | some e => if stopsScan now e then h else writeCell h p.2 (dispatchUpd now e)
         | none => h) t now := rfl

theorem fireWrites_length (h : Heap) (reg : List (String × Nat)) (now : Nat) :
    (fireWrites h reg now).length = h.length := by
  induction reg generalizing h with
  | nil => rfl
  | cons p t ih =>
    rw [fireWrites_cons]
    refine (ih _).trans ?_
    cases readCell h p.2 with
    | none => rfl
    | some e =>
      by_cases hs : stopsScan now e = true
      · simp [hs]
      · simp [hs, writeCell, List.length_set]

theorem fireWrites_frame (h : Heap) (reg : List (String × Nat)) (now : Nat) (i : Nat)
    (hi : ∀ p ∈ reg, p.2 ≠ i) :
    readCell (fireWrites h reg now) i = readCell h i := by
  induction reg generalizing h with
  | nil => rfl
  | cons p t ih =>
    rw [fireWrites_cons]
    have hp : p.2 ≠ i := hi p (List.mem_cons_self _ _)
    have hstep : readCell (match readCell h p.2 with
        | some e => if stopsScan now e then h else writeCell h p.2 (dispatchUpd now e)
        | none => h) i = readCell h i := by
      cases readCell h p.2 with
      | none => rfl
      | some e =>
        by_cases hs : stopsScan now e = true
        · simp [hs]
        · simp only [hs, Bool.false_eq_true, if_false, writeCell, readCell]
          exact List.get?_set_ne _ _ hp
    exact (ih _ (fun q hq => hi q (List.mem_cons_of_mem _ hq))).trans hstep

theorem applyMutation_frame (st : CronHeap) (m : Mutation) (i : Nat)
    (hlen : i < st.heap.length) (hreg : ∀ p ∈ st.reg, p.2 ≠ i) :
    readCell (applyMutation st m).heap i = readCell st.heap i ∧
    i < (applyMutation st m).heap.length ∧
    (∀ p ∈ (applyMutation st m).reg, p.2 ≠ i) := by
  cases m with
  | fire now =>
    refine ⟨fireWrites_frame st.heap st.reg now i hreg, ?_, hreg⟩
    show i < (fireWrites st.heap st.reg now).length
    rw [fireWrites_length]
    exact hlen
  | add now schedule name cmd =>
    by_cases hl : (lookupKey st.reg name).isSome = true
    · have hid : applyMutation st (.add now schedule name cmd) = st := by
        simp [applyMutation, hl]
      rw [hid]
      exact ⟨rfl, hlen, hreg⟩
    · simp only [applyMutation, hl, Bool.false_eq_true, if_false]
      refine ⟨?_, ?_, ?_⟩
      · exact List.get?_append hlen
      · simp only [List.length_append]
        omega
      · intro p hp
        rcases List.mem_append.1 hp with h1 | h1
        · exact hreg p h1
        · rcases List.mem_singleton.1 h1 with rfl
          show st.heap.length ≠ i
          omega
  | update now schedule name cmd =>
    refine ⟨?_, ?_, ?_⟩
    · exact List.get?_append hlen
    · show i < (st.heap ++ _).length
      simp only [List.length_append]
      omega
    · intro p hp
      rcases List.mem_cons.1 hp with rfl | h1
      · show st.heap.length ≠ i
        omega
      · exact hreg p ((removeKey_sublist _ _).subset h1)
  | remove name =>
    exact ⟨rfl, hlen, fun p hp => hreg p ((removeKey_sublist _ _).subset hp)⟩

theorem applyMutations_frame (ops : List Mutation) (st : CronHeap) (i : Nat)
    (hlen : i < st.heap.length) (hreg : ∀ p ∈ st.reg, p.2 ≠ i) :
    readCell (applyMutations ops st).heap i = readCell st.heap i := by
  induction ops generalizing st with
  | nil => rfl
  | cons m t ih =>
    obtain ⟨h1, h2, h3⟩ := applyMutation_frame st m i hlen hreg
    show readCell (applyMutations t (applyMutation st m)).heap i = readCell st.heap i
    exact (ih _ h2 h3).trans h1

/-- Reading back a freshly allocated batch returns exactly the allocated
objects. -/
theorem get_append_range (h : Heap) (es : List Entry) :
    (List.range' h.length es.length).map (fun i => readCell (h ++ es) i) =
      es.map some := by
  induction es generalizing h with
  | nil => simp
  | cons e t ih =>
    simp only [List.length_cons, List.range'_succ, List.map_cons]
    have h1 : readCell (h ++ e :: t) h.length = some e := by
      unfold readCell
      rw [List.get?_append_right (Nat.le_refl _)]
      simp
    have h2 : (List.range' (h.length + 1) t.length).map
        (fun i => readCell (h ++ e :: t) i) = t.map some := by
      have hsplit : h ++ e :: t = (h ++ [e]) ++ t := by simp
      rw [hsplit]
      have hlen : h.length + 1 = (h ++ [e]).length := by simp
      rw [hlen]
      exact ih (h ++ [e])
    rw [h1, h2]

/-- C9: `Entries`/`entrySnapshot` returns an independent copy of the current
entries.  Reading the snapshot's cells immediately after the call yields
exactly one copy per registry entry, in registry order; each copy carries
the entry's schedule, `Next`, `Prev` and job, with the `Name` field omitted
(left at Go's zero string); and after any sequence of subsequent registry
mutations — dispatch bookkeeping writes, adds, updates, removals — every
snapshot cell still reads exactly what it read at snapshot time. -/
theorem entries_snapshot_independent (st : CronHeap) (ops : List Mutation)
    (hwf : ∀ p ∈ st.reg, p.2 < st.heap.length) :
    ((entrySnapshot st).2.map (fun i => readCell (entrySnapshot st).1.heap i) =
      (st.reg.filterMap (fun p => readCell st.heap p.2)).map
        (fun e => some (snapshotCopy e))) ∧
    (∀ e : Entry, (snapshotCopy e).name = "" ∧ (snapshotCopy e).schedule = e.schedule ∧
      (snapshotCopy e).next = e.next ∧ (snapshotCopy e).prev = e.prev ∧
      (snapshotCopy e).job = e.job) ∧
    (∀ i ∈ (entrySnapshot st).2,
      readCell (applyMutations ops (entrySnapshot st).1).heap i =
        readCell (entrySnapshot st).1.heap i) := by
  refine ⟨?_, fun e => ⟨rfl, rfl, rfl, rfl, rfl⟩, ?_⟩
  · rw [show (entrySnapshot st).2 =
        List.range' st.heap.length
          ((st.reg.filterMap (fun p => readCell st.heap p.2)).map snapshotCopy).length
        from rfl,
      show (entrySnapshot st).1.heap =
        st.heap ++ (st.reg.filterMap (fun p => readCell st.heap p.2)).map snapshotCopy
        from rfl,
      get_append_range, List.map_map]
    rfl
  · intro i hi
    have hmem : st.heap.length ≤ i ∧
        i < st.heap.length +
          ((st.reg.filterMap (fun p => readCell st.heap p.2)).map snapshotCopy).length :=
      List.mem_range'_1.1 hi
    apply applyMutations_frame
    · show i < (st.heap ++
        (st.reg.filterMap (fun p => readCell st.heap p.2)).map snapshotCopy).length
      rw [List.length_append]
      omega
    · show ∀ p ∈ st.reg, p.2 ≠ i
      intro p hp
      have := hwf p hp
      omega

/-- Witness for C9 at a concrete one-entry state and a mutation sequence that
fires, updates, adds and removes. -/
theorem entries_snapshot_independent_witness :
    (((entrySnapshot heapDemo).2.map
        (fun i => readCell (entrySnapshot heapDemo).1.heap i) =
      (heapDemo.reg.filterMap (fun p => readCell heapDemo.heap p.2)).map
        (fun e => some (snapshotCopy e))) ∧
    (∀ e : Entry, (snapshotCopy e).name = "" ∧ (snapshotCopy e).schedule = e.schedule ∧
      (snapshotCopy e).next = e.next ∧ (snapshotCopy e).prev = e.prev ∧
      (snapshotCopy e).job = e.job) ∧
    (∀ i ∈ (entrySnapshot heapDemo).2,
      readCell (applyMutations mutsDemo (entrySnapshot heapDemo).1).heap i =
        readCell (entrySnapshot heapDemo).1.heap i)) :=
  entries_snapshot_independent heapDemo mutsDemo (by decide)

end Cron
